import Mathlib

/-!
Verification of the spell-checker engine in `corretor.py` (class `Corretor`).

Strings are modelled as `List Char` (Python strings are sequences of Unicode
code points).  Character-level operations (`str.lower`, `str.isupper`,
`str.capitalize`, the `\w` word-character class of `re`, and the character
class of the regex `[A-Za-zÀ-ÿ]`) are tabulated over the Latin-1 range
(U+0000–U+00FF) plus U+0178 (Ÿ, the uppercase of ÿ); the program's regexes
and alphabet only produce characters of that range from Latin-1 input, and
characters above that range are treated as plain non-word characters.
-/

/-! ## Python character primitives (Latin-1 range) -/

/-- Python `str.lower` for one character, tabulated on the Latin-1 range plus
Ÿ (U+0178 → U+00FF): ASCII `A`–`Z` and the Latin-1 uppercase block U+00C0–U+00DE
(excluding the multiplication sign U+00D7) move down by 0x20. -/
def toLowerChar (c : Char) : Char :=
  if 0x41 ≤ c.toNat ∧ c.toNat ≤ 0x5A then Char.ofNat (c.toNat + 0x20)
  else if 0xC0 ≤ c.toNat ∧ c.toNat ≤ 0xDE ∧ c.toNat ≠ 0xD7 then Char.ofNat (c.toNat + 0x20)
  else if c.toNat = 0x178 then Char.ofNat 0xFF
  else c

/-- Python `str.upper` for one character on the same range: `a`–`z` and
U+00E0–U+00FE (excluding the division sign U+00F7) move up by 0x20,
ÿ (U+00FF) maps to Ÿ (U+0178), µ (U+00B5) maps to Greek Μ (U+039C). -/
def toUpperChar (c : Char) : Char :=
  if 0x61 ≤ c.toNat ∧ c.toNat ≤ 0x7A then Char.ofNat (c.toNat - 0x20)
  else if 0xE0 ≤ c.toNat ∧ c.toNat ≤ 0xFE ∧ c.toNat ≠ 0xF7 then Char.ofNat (c.toNat - 0x20)
  else if c.toNat = 0xFF then Char.ofNat 0x178
  else if c.toNat = 0xB5 then Char.ofNat 0x39C
  else c

/-- Python `str.isupper` for one character on the same range. -/
def isUpperChar (c : Char) : Bool :=
  (0x41 ≤ c.toNat && c.toNat ≤ 0x5A) ||
  (0xC0 ≤ c.toNat && c.toNat ≤ 0xDE && c.toNat ≠ 0xD7) ||
  c.toNat = 0x178

/-- The title-case mapping Python `str.capitalize` applies to the first
character: ß (U+00DF) title-cases to the two characters `Ss`; every other
character of our range title-cases like `str.upper`. -/
def titleChars (c : Char) : List Char :=
  if c.toNat = 0xDF then ['S', 's'] else [toUpperChar c]

/-- Python `word.lower()`. -/
def lowerStr (s : List Char) : List Char := s.map toLowerChar

/-- Python `word.capitalize()`: title-case the first character, lowercase the
rest. -/
def pythonCapitalize : List Char → List Char
  | [] => []
  | c :: rest => titleChars c ++ rest.map toLowerChar

/-- Python `word[0].isupper()` (on the empty string the source never asks). -/
def firstUpper : List Char → Bool
  | [] => false
  | c :: _ => isUpperChar c

/-- The character class of the regex `_WORD_RE = [A-Za-zÀ-ÿ]+`: ASCII letters
and the whole block U+00C0–U+00FF (which includes × U+00D7 and ÷ U+00F7). -/
def isExtLetter (c : Char) : Bool :=
  (0x41 ≤ c.toNat && c.toNat ≤ 0x5A) ||
  (0x61 ≤ c.toNat && c.toNat ≤ 0x7A) ||
  (0xC0 ≤ c.toNat && c.toNat ≤ 0xFF)

/-- Python's `\w` (Unicode word character: alphanumeric or underscore),
tabulated on the Latin-1 range plus Ÿ: digits, ASCII letters, underscore,
ª ² ³ µ ¹ º ¼ ½ ¾, and U+00C0–U+00FF minus × and ÷. -/
def isWordChar (c : Char) : Bool :=
  (0x30 ≤ c.toNat && c.toNat ≤ 0x39) ||
  (0x41 ≤ c.toNat && c.toNat ≤ 0x5A) ||
  c.toNat = 0x5F ||
  (0x61 ≤ c.toNat && c.toNat ≤ 0x7A) ||
  c.toNat = 0xAA || c.toNat = 0xB2 || c.toNat = 0xB3 || c.toNat = 0xB5 ||
  c.toNat = 0xB9 || c.toNat = 0xBA || c.toNat = 0xBC || c.toNat = 0xBD || c.toNat = 0xBE ||
  (0xC0 ≤ c.toNat && c.toNat ≤ 0xFF && c.toNat ≠ 0xD7 && c.toNat ≠ 0xF7) ||
  c.toNat = 0x178

/-- `_WORD_RE.fullmatch(p)` succeeds: one or more characters, all from
`[A-Za-zÀ-ÿ]`. -/
def wordFull (p : List Char) : Bool := !p.isEmpty && p.all isExtLetter

/-- `_LETTERS`, the fixed alphabet of `corretor.py`. -/
def pyLETTERS : List Char := "abcdefghijklmnopqrstuvwxyzáàâãéêíóôõúüç".data

/-! ## `edit_distance` (Levenshtein distance, iterative two-row DP)

`edit_distance` below is the translation of the source's dynamic program:
`rowAux` is the inner `for j in range(1, nb+1)` loop (carrying `diag =
prev[j-1]`, `left = cur[j-1]`, and consuming `b` and `prev[1:]` in step), and
`dpLoop` the outer `for i in range(1, na+1)` loop. -/

/-- Inner loop of the DP: given `a[i-1]`, `diag = prev[j-1]`, `left = cur[j-1]`,
the remaining characters of `b` and the remaining entries `prev[j:]`, produce
`cur[1:]`. -/
def rowAux (ai : Char) : Nat → Nat → List Char → List Nat → List Nat
  | _, _, [], _ => []
  | _, _, _ :: _, [] => []
  | diag, left, bj :: bs, up :: ps =>
    let cost : Nat := if ai = bj then 0 else 1
    let v := min (up + 1) (min (left + 1) (diag + cost))
    v :: rowAux ai up v bs ps

/-- Outer loop of the DP: processes the remaining characters of `a` with the
running row index `i`, threading the previous row. -/
def dpLoop (b : List Char) : List Char → Nat → List Nat → List Nat
  | [], _, prev => prev
  | ai :: arest, i, prev => dpLoop b arest (i + 1) (i :: rowAux ai (prev.headD 0) i b prev.tail)

/-- `edit_distance(a, b)` from `corretor.py`: 0 when `a == b`, the other's
length when one is empty, otherwise the two-row DP whose final answer is
`prev[nb]` (the last entry of the final row). -/
def edit_distance (a b : List Char) : Nat :=
  if a = b then 0
  else if a = [] then b.length
  else if b = [] then a.length
  else (dpLoop b a 1 (List.range (b.length + 1))).getLastD 0

/-! ## Recursive Levenshtein distance and its characterisation

`lev` is the textbook recursive Levenshtein distance; the DP above is proved
equal to it, and `lev` in turn is proved to be the least cost of an edit
alignment (`Edits`), which is the spec's definition: single-character
insertions, deletions and substitutions at cost 1, matching characters at
cost 0. -/

def lev : List Char → List Char → Nat
  | [], ys => ys.length
  | x :: xs, [] => (x :: xs).length
  | x :: xs, y :: ys =>
    min (lev xs (y :: ys) + 1)
      (min (lev (x :: xs) ys + 1) (lev xs ys + (if x = y then 0 else 1)))
termination_by a b => a.length + b.length
decreasing_by all_goals simp_arith

/-- Modelled from the spec: `Edits a b n` holds when `a` can be transformed
into `b` by an alignment of cost `n`, where a matching character costs 0 and
each substitution, deletion or insertion costs 1. -/
inductive Edits : List Char → List Char → Nat → Prop
  | nil : Edits [] [] 0
  | keep (c : Char) {xs ys n} : Edits xs ys n → Edits (c :: xs) (c :: ys) n
  | subst (c d : Char) {xs ys n} : c ≠ d → Edits xs ys n → Edits (c :: xs) (d :: ys) (n + 1)
  | del (c : Char) {xs ys n} : Edits xs ys n → Edits (c :: xs) ys (n + 1)
  | ins (d : Char) {xs ys n} : Edits xs ys n → Edits xs (d :: ys) (n + 1)

/-- Specification of the tail of a DP row: starting after the prefix `bdone`
of `b`, the distances from `pre` to each longer prefix of `b`. -/
def rowTail (pre : List Char) : List Char → List Char → List Nat
  | _, [] => []
  | bdone, bj :: bs => lev pre (bdone ++ [bj]) :: rowTail pre (bdone ++ [bj]) bs

/-! ## The `Corretor` vocabulary and candidate generation

The vocabulary `self.W` (a `Counter`) is modelled as an association list in
iteration order, word → frequency.  Python's `set(...)` in `edits1`/`edits2`
is modelled as the underlying enumeration list (possibly with duplicates):
a Python `set` iterates in an unspecified hash order, and every theorem below
depends on the sets only through membership, emptiness, minima, or ties that
the unspecified order would also leave open. -/

abbrev Vocab := List (List Char × Nat)

/-- The keys of `self.W`, in iteration order. -/
def keys (W : Vocab) : List (List Char) := W.map Prod.fst

/-- `word in self.W`. -/
def memW (W : Vocab) (word : List Char) : Bool := (keys W).contains word

/-- `self.W[word]` (a `Counter` yields 0 for a missing key). -/
def freq (W : Vocab) (word : List Char) : Nat :=
  match W.find? (fun e => e.1 == word) with
  | some e => e.2
  | none => 0

/-- `self.N = sum(self.W.values()) or 1`. -/
def Nval (W : Vocab) : Nat :=
  if (W.map Prod.snd).sum = 0 then 1 else (W.map Prod.snd).sum

/-- `self.P(word) = self.W[word] / self.N` (the `if self.N` guard is dead:
`Nval` is never 0).  The Python float quotient is modelled as the exact
rational `freq/N`, built with `mkRat` so that it evaluates. -/
def P (W : Vocab) (word : List Char) : ℚ := mkRat (freq W word) (Nval W)

/-- `splits = [(word[:i], word[i:]) for i in range(len(word)+1)]`. -/
def splits (word : List Char) : List (List Char × List Char) :=
  (List.range (word.length + 1)).map (fun i => (word.take i, word.drop i))

/-- `deletes = [L + R[1:] for L, R in splits if R]`. -/
def deletes (word : List Char) : List (List Char) :=
  (splits word).filterMap (fun p =>
    match p.2 with
    | [] => none
    | _ :: rt => some (p.1 ++ rt))

/-- `transposes = [L + R[1] + R[0] + R[2:] for L, R in splits if len(R) > 1]`. -/
def transposes (word : List Char) : List (List Char) :=
  (splits word).filterMap (fun p =>
    match p.2 with
    | r0 :: r1 :: rr => some (p.1 ++ r1 :: r0 :: rr)
    | _ => none)

/-- `replaces = [L + c + (R[1:] if len(R) > 0 else "") for L, R in splits if R
for c in _LETTERS]`. -/
def replaces (word : List Char) : List (List Char) :=
  (splits word).filterMap (fun p =>
    match p.2 with
    | [] => none
    | _ :: rt => some (pyLETTERS.map (fun c => p.1 ++ c :: rt))) |>.flatten

/-- `inserts = [L + c + R for L, R in splits for c in _LETTERS]`. -/
def inserts (word : List Char) : List (List Char) :=
  ((splits word).map (fun p => pyLETTERS.map (fun c => p.1 ++ c :: p.2))).flatten

/-- `edits1(word) = set(deletes + transposes + replaces + inserts)`. -/
def edits1 (word : List Char) : List (List Char) :=
  deletes word ++ transposes word ++ replaces word ++ inserts word

/-- `edits2(word) = {e2 for e1 in edits1(word) for e2 in edits1(e1)}`. -/
def edits2 (word : List Char) : List (List Char) :=
  ((edits1 word).map edits1).flatten

/-- `known(words_set) = {w for w in words_set if w in self.W}`. -/
def known (W : Vocab) (ws : List (List Char)) : List (List Char) :=
  ws.filter (fun w => memW W w)

/-- `_closest_by_edit_distance`'s loop: scan the vocabulary keys keeping the
first strict improvement `(best, best_d)`, breaking as soon as `best_d == 0`. -/
def closestAux (word : List Char) : List (List Char) → Option (List Char × Nat) →
    Option (List Char × Nat)
  | [], acc => acc
  | w :: ws, acc =>
    let d := edit_distance word w
    let update : Bool := match acc with
      | none => true
      | some (_, bd) => d < bd
    if update then
      if d = 0 then some (w, d) else closestAux word ws (some (w, d))
    else closestAux word ws acc

/-- `_closest_by_edit_distance(word)`: `None` on an empty vocabulary, else the
kept best key. -/
def closest_by_edit_distance (W : Vocab) (word : List Char) : Option (List Char) :=
  (closestAux word (keys W) none).map Prod.fst

/-- `candidates(word)`: the cascade of the source (`{word}` when known, else
known `edits1`, else known `edits2`, else the closest key or `{word}`). -/
def candidates (W : Vocab) (word : List Char) : List (List Char) :=
  if memW W word then [word]
  else if known W (edits1 word) ≠ [] then known W (edits1 word)
  else if known W (edits2 word) ≠ [] then known W (edits2 word)
  else
    match closest_by_edit_distance W word with
    | some c => [c]
    | none => [word]

/-- Python `min` over a non-empty list of naturals (the generator
`min(edit_distance(low, w) for w in cands)`; the `[]` case is never reached,
`candidates` is proved non-empty). -/
def listMin : List Nat → Nat
  | [] => 0
  | x :: xs => xs.foldl min x

/-- Python `max(cands, key=self.P)`: the first element whose key is maximal
(a later element replaces the current best only when strictly greater). -/
def maxByP (W : Vocab) : List (List Char) → Option (List Char)
  | [] => none
  | x :: xs => some (xs.foldl (fun b w => if P W b < P W w then w else b) x)

/-- `min_dist = min(edit_distance(low, w) for w in cands)`. -/
def minDistOf (W : Vocab) (low : List Char) : Nat :=
  listMin ((candidates W low).map (edit_distance low))

/-- `closest_cands = [w for w in cands if edit_distance(low, w) == min_dist]`. -/
def closestCands (W : Vocab) (low : List Char) : List (List Char) :=
  (candidates W low).filter (fun w => edit_distance low w == minDistOf W low)

/-- `best = max(closest_cands, key=self.P) if closest_cands else word`. -/
def bestOf (W : Vocab) (word low : List Char) : List Char :=
  match maxByP W (closestCands W low) with
  | some b => b
  | none => word

/-- `correction(word)` from `corretor.py`. -/
def correction (W : Vocab) (word : List Char) : List Char :=
  if word = [] then word
  else
    let low := lowerStr word
    let best := bestOf W word low
    if firstUpper word then pythonCapitalize best else best

/-! ## `correct_sentence`

`re.split(r'(\W+)', text)` splits `text` at every maximal run of non-word
(`\W`) characters and, because of the capture group, keeps those runs in the
result: the parts alternate between (possibly empty, at either end) runs of
word characters and non-empty runs of non-word characters.  `splitWords`
computes that list; the `fuel` argument (always one more than the remaining
length) only serves Lean's termination and never runs out. -/

def splitWordsF : Nat → List Char → List (List Char)
  | 0, _ => []
  | fuel + 1, text =>
    match text.dropWhile isWordChar with
    | [] => [text.takeWhile isWordChar]
    | r :: rs =>
      text.takeWhile isWordChar :: (r :: rs).takeWhile (fun c => !isWordChar c) ::
        splitWordsF fuel ((r :: rs).dropWhile (fun c => !isWordChar c))

/-- `parts = re.split(r'(\W+)', text)`. -/
def splitWords (text : List Char) : List (List Char) := splitWordsF (text.length + 1) text

/-- `corrections[p] = cand` on a Python `dict`: replace the value at an
existing key in place, otherwise append the pair. -/
def dictInsert : List (List Char × List Char) → List Char → List Char →
    List (List Char × List Char)
  | [], k, v => [(k, v)]
  | (k2, v2) :: rest, k, v =>
    if k2 = k then (k, v) :: rest else (k2, v2) :: dictInsert rest k v

/-- The loop of `correct_sentence`: for each part, if `_WORD_RE.fullmatch(p)`
then append `correction(p)` and record it in `corrections` when it differs
from `p` ignoring case, else append `p` verbatim. -/
def csFold (W : Vocab) : List (List Char) → List (List Char) →
    List (List Char × List Char) → List (List Char) × List (List Char × List Char)
  | [], accP, accM => (accP, accM)
  | p :: ps, accP, accM =>
    if wordFull p then
      let cand := correction W p
      csFold W ps (accP ++ [cand])
        (if lowerStr cand ≠ lowerStr p then dictInsert accM p cand else accM)
    else csFold W ps (accP ++ [p]) accM

/-- `correct_sentence(text)`: `("".join(corrected_parts), corrections)`. -/
def correct_sentence (W : Vocab) (text : List Char) :
    List Char × List (List Char × List Char) :=
  ((csFold W (splitWords text) [] []).1.flatten, (csFold W (splitWords text) [] []).2)

/-! ## Facts about the candidate machinery -/

/-! ## Sanity checks of the embedding -/

example : edit_distance "caxa".data "casa".data = 1 := by decide
example : edit_distance "xato".data "rato".data = 1 := by decide
example : edit_distance "caxa".data "caso".data = 2 := by decide
example : edit_distance "".data "abc".data = 3 := by decide

example : correction [("casa".data, 10), ("caso".data, 1)] "caxa".data = "casa".data := by decide
example : correction [("rato".data, 5), ("pato".data, 2)] "xato".data = "rato".data := by decide
example : correction [("casa".data, 1)] "Casa".data = "Casa".data := by decide
example : correction [("casa".data, 1)] "CASA".data = "Casa".data := by decide

/-! ## Facts about `lev` and `Edits` -/

lemma lev_nil_left (ys : List Char) : lev [] ys = ys.length := by
  rw [lev]

lemma lev_nil_right (xs : List Char) : lev xs [] = xs.length := by
  cases xs with
  | nil => rw [lev]
  | cons x xs => rw [lev]

lemma lev_cons_cons (x y : Char) (xs ys : List Char) :
    lev (x :: xs) (y :: ys) =
      min (lev xs (y :: ys) + 1)
        (min (lev (x :: xs) ys + 1) (lev xs ys + (if x = y then 0 else 1))) := by
  rw [lev]

lemma lev_self (a : List Char) : lev a a = 0 := by
  induction a with
  | nil => rw [lev_nil_left]; rfl
  | cons x xs ih =>
    rw [lev_cons_cons, if_pos rfl, ih]
    simp

lemma edits_nil_right : ∀ xs : List Char, Edits xs [] xs.length := by
  intro xs
  induction xs with
  | nil => exact Edits.nil
  | cons x xs ih => exact Edits.del x ih

lemma edits_nil_left : ∀ ys : List Char, Edits [] ys ys.length := by
  intro ys
  induction ys with
  | nil => exact Edits.nil
  | cons y ys ih => exact Edits.ins y ih

/-- `lev` is achieved by some alignment. -/
lemma edits_lev : ∀ a b : List Char, Edits a b (lev a b) := by
  intro a
  induction a with
  | nil =>
    intro b; rw [lev_nil_left]; exact edits_nil_left b
  | cons x xs iha =>
    intro b
    induction b with
    | nil =>
      rw [lev_nil_right]; exact edits_nil_right _
    | cons y ys ihb =>
      rw [lev_cons_cons]
      rcases min_choice (lev xs (y :: ys) + 1)
          (min (lev (x :: xs) ys + 1) (lev xs ys + (if x = y then 0 else 1))) with h | h
      · rw [h]; exact Edits.del x (iha (y :: ys))
      · rw [h]
        rcases min_choice (lev (x :: xs) ys + 1) (lev xs ys + (if x = y then 0 else 1)) with
          h2 | h2
        · rw [h2]; exact Edits.ins y ihb
        · rw [h2]
          by_cases hxy : x = y
          · rw [if_pos hxy]; subst hxy; exact Edits.keep x (iha ys)
          · rw [if_neg hxy]; exact Edits.subst x y hxy (iha ys)

/-- No alignment is cheaper than `lev`. -/
lemma lev_le_of_edits : ∀ {a b : List Char} {n : Nat}, Edits a b n → lev a b ≤ n := by
  intro a b n h
  induction h with
  | nil => simp [lev_nil_left]
  | keep c _ ih =>
    rw [lev_cons_cons, if_pos rfl]
    calc min _ (min _ (lev _ _ + 0)) ≤ min _ (lev _ _ + 0) := min_le_right _ _
      _ ≤ lev _ _ + 0 := min_le_right _ _
      _ ≤ _ := by simpa using ih
  | subst c d hne _ ih =>
    rw [lev_cons_cons, if_neg hne]
    calc min _ (min _ (lev _ _ + 1)) ≤ min _ (lev _ _ + 1) := min_le_right _ _
      _ ≤ lev _ _ + 1 := min_le_right _ _
      _ ≤ _ := by omega
  | @del c xs ys n _ ih =>
    cases ys with
    | nil =>
      rw [lev_nil_right]
      rw [lev_nil_right] at ih
      simpa using Nat.succ_le_succ ih
    | cons y ys =>
      rw [lev_cons_cons]
      calc min (lev xs (y :: ys) + 1) _ ≤ lev xs (y :: ys) + 1 := min_le_left _ _
        _ ≤ _ := by omega
  | @ins d xs ys n _ ih =>
    cases xs with
    | nil =>
      rw [lev_nil_left]
      rw [lev_nil_left] at ih
      simpa using Nat.succ_le_succ ih
    | cons x xs =>
      rw [lev_cons_cons]
      calc min _ (min (lev (x :: xs) ys + 1) _) ≤ min (lev (x :: xs) ys + 1) _ :=
            min_le_right _ _
        _ ≤ lev (x :: xs) ys + 1 := min_le_left _ _
        _ ≤ _ := by omega

/-- Alignments are symmetric: deletions and insertions swap. -/
lemma edits_symm : ∀ {a b : List Char} {n : Nat}, Edits a b n → Edits b a n := by
  intro a b n h
  induction h with
  | nil => exact Edits.nil
  | keep c _ ih => exact Edits.keep c ih
  | subst c d hne _ ih => exact Edits.subst d c (Ne.symm hne) ih
  | del c _ ih => exact Edits.ins c ih
  | ins d _ ih => exact Edits.del d ih

lemma lev_symm (a b : List Char) : lev a b = lev b a :=
  le_antisymm (lev_le_of_edits (edits_symm (edits_lev b a)))
    (lev_le_of_edits (edits_symm (edits_lev a b)))

lemma edits_snoc_keep {xs ys : List Char} {n : Nat} (c : Char) (h : Edits xs ys n) :
    Edits (xs ++ [c]) (ys ++ [c]) n := by
  induction h with
  | nil => exact Edits.keep c Edits.nil
  | keep c2 _ ih => exact Edits.keep c2 ih
  | subst c2 d2 hne _ ih => exact Edits.subst c2 d2 hne ih
  | del c2 _ ih => exact Edits.del c2 ih
  | ins d2 _ ih => exact Edits.ins d2 ih

lemma edits_snoc_subst {xs ys : List Char} {n : Nat} (c d : Char) (hcd : c ≠ d)
    (h : Edits xs ys n) : Edits (xs ++ [c]) (ys ++ [d]) (n + 1) := by
  induction h with
  | nil => exact Edits.subst c d hcd Edits.nil
  | keep c2 _ ih => exact Edits.keep c2 ih
  | subst c2 d2 hne _ ih => exact Edits.subst c2 d2 hne ih
  | del c2 _ ih => exact Edits.del c2 ih
  | ins d2 _ ih => exact Edits.ins d2 ih

lemma edits_snoc_del {xs ys : List Char} {n : Nat} (c : Char) (h : Edits xs ys n) :
    Edits (xs ++ [c]) ys (n + 1) := by
  induction h with
  | nil => exact Edits.del c Edits.nil
  | keep c2 _ ih => exact Edits.keep c2 ih
  | subst c2 d2 hne _ ih => exact Edits.subst c2 d2 hne ih
  | del c2 _ ih => exact Edits.del c2 ih
  | ins d2 _ ih => exact Edits.ins d2 ih

lemma edits_snoc_ins {xs ys : List Char} {n : Nat} (d : Char) (h : Edits xs ys n) :
    Edits xs (ys ++ [d]) (n + 1) := by
  induction h with
  | nil => exact Edits.ins d Edits.nil
  | keep c2 _ ih => exact Edits.keep c2 ih
  | subst c2 d2 hne _ ih => exact Edits.subst c2 d2 hne ih
  | del c2 _ ih => exact Edits.del c2 ih
  | ins d2 _ ih => exact Edits.ins d2 ih

lemma edits_reverse {a b : List Char} {n : Nat} (h : Edits a b n) :
    Edits a.reverse b.reverse n := by
  induction h with
  | nil => exact Edits.nil
  | keep c _ ih => simpa [List.reverse_cons] using edits_snoc_keep c ih
  | subst c d hne _ ih => simpa [List.reverse_cons] using edits_snoc_subst c d hne ih
  | del c _ ih => simpa [List.reverse_cons] using edits_snoc_del c ih
  | ins d _ ih => simpa [List.reverse_cons] using edits_snoc_ins d ih

lemma lev_reverse (a b : List Char) : lev a.reverse b.reverse = lev a b := by
  apply le_antisymm
  · exact lev_le_of_edits (edits_reverse (edits_lev a b))
  · have h := lev_le_of_edits (edits_reverse (edits_lev a.reverse b.reverse))
    simpa using h

/-- The Levenshtein recurrence at the right end, in the exact shape of the
inner DP loop: `min (up+1) (min (left+1) (diag+cost))`. -/
lemma lev_snoc_snoc (x y : Char) (xs ys : List Char) :
    lev (xs ++ [x]) (ys ++ [y]) =
      min (lev xs (ys ++ [y]) + 1)
        (min (lev (xs ++ [x]) ys + 1) (lev xs ys + (if x = y then 0 else 1))) := by
  have h1 : lev (xs ++ [x]) (ys ++ [y]) = lev (x :: xs.reverse) (y :: ys.reverse) := by
    rw [← lev_reverse (x :: xs.reverse) (y :: ys.reverse)]
    simp [List.reverse_cons]
  have h2 : lev xs.reverse (y :: ys.reverse) = lev xs (ys ++ [y]) := by
    rw [← lev_reverse xs (ys ++ [y])]
    simp [List.reverse_append]
  have h3 : lev (x :: xs.reverse) ys.reverse = lev (xs ++ [x]) ys := by
    rw [← lev_reverse (xs ++ [x]) ys]
    simp [List.reverse_append]
  have h4 : lev xs.reverse ys.reverse = lev xs ys := lev_reverse xs ys
  rw [h1, lev_cons_cons, h2, h3, h4]

/-! ## Correctness of the two-row DP -/

lemma rowAux_correct (pre : List Char) (ai : Char) :
    ∀ (bs bdone : List Char),
      rowAux ai (lev pre bdone) (lev (pre ++ [ai]) bdone) bs (rowTail pre bdone bs) =
        rowTail (pre ++ [ai]) bdone bs := by
  intro bs
  induction bs with
  | nil => intro bdone; rfl
  | cons bj bs ih =>
    intro bdone
    rw [rowTail, rowTail]
    simp only [rowAux]
    rw [← lev_snoc_snoc ai bj pre bdone, ih (bdone ++ [bj])]

lemma rowTail_range :
    ∀ (bs bdone : List Char), rowTail [] bdone bs = List.range' (bdone.length + 1) bs.length := by
  intro bs
  induction bs with
  | nil => intro bdone; rfl
  | cons bj bs ih =>
    intro bdone
    rw [rowTail, ih (bdone ++ [bj]), List.length_cons, List.range'_succ, lev_nil_left]
    simp

lemma dpLoop_correct (b : List Char) :
    ∀ (arest pre : List Char),
      dpLoop b arest (pre.length + 1) (lev pre [] :: rowTail pre [] b) =
        lev (pre ++ arest) [] :: rowTail (pre ++ arest) [] b := by
  intro arest
  induction arest with
  | nil => intro pre; simp [dpLoop]
  | cons ai arest ih =>
    intro pre
    rw [dpLoop]
    simp only [List.headD_cons, List.tail_cons]
    have hlen : pre.length + 1 = lev (pre ++ [ai]) [] := by
      rw [lev_nil_right]; simp
    rw [hlen, rowAux_correct pre ai b []]
    have h2 : lev (pre ++ [ai]) [] + 1 = (pre ++ [ai]).length + 1 := by rw [lev_nil_right]
    rw [h2, ih (pre ++ [ai])]
    simp

lemma rowTail_getLastD (pre : List Char) :
    ∀ (bs bdone : List Char),
      (rowTail pre bdone bs).getLastD (lev pre bdone) = lev pre (bdone ++ bs) := by
  intro bs
  induction bs with
  | nil => intro bdone; simp [rowTail]
  | cons bj bs ih =>
    intro bdone
    rw [rowTail, List.getLastD_cons, ih (bdone ++ [bj])]
    simp

/-- The iterative two-row DP of the source computes the recursive Levenshtein
distance. -/
lemma edit_distance_eq_lev (a b : List Char) : edit_distance a b = lev a b := by
  rw [edit_distance]
  by_cases hab : a = b
  · rw [if_pos hab, hab, lev_self]
  rw [if_neg hab]
  by_cases ha : a = []
  · rw [if_pos ha, ha, lev_nil_left]
  rw [if_neg ha]
  by_cases hb : b = []
  · rw [if_pos hb, hb, lev_nil_right]
  rw [if_neg hb]
  have hinit : List.range (b.length + 1) = lev [] [] :: rowTail [] [] b := by
    rw [List.range_eq_range', List.range'_succ, rowTail_range b [], lev_nil_left]
    simp
  rw [hinit]
  have hd := dpLoop_correct b a []
  simp only [List.length_nil, List.nil_append, Nat.zero_add] at hd
  rw [hd, List.getLastD_cons, rowTail_getLastD a b []]
  simp

/-- `edit_distance a b` is exactly the least cost of transforming `a` into
`b` by single-character edits. -/
lemma edit_distance_spec (a b : List Char) :
    Edits a b (edit_distance a b) ∧ ∀ n, Edits a b n → edit_distance a b ≤ n := by
  rw [edit_distance_eq_lev]
  exact ⟨edits_lev a b, fun n h => lev_le_of_edits h⟩

lemma edit_distance_self (a : List Char) : edit_distance a a = 0 := by
  rw [edit_distance_eq_lev, lev_self]

lemma edit_distance_symm (a b : List Char) : edit_distance a b = edit_distance b a := by
  rw [edit_distance_eq_lev, edit_distance_eq_lev, lev_symm]

lemma memW_iff (W : Vocab) (w : List Char) : memW W w = true ↔ w ∈ keys W :=
  List.elem_iff

lemma foldl_min_le_init : ∀ (l : List Nat) (x : Nat), l.foldl min x ≤ x := by
  intro l
  induction l with
  | nil => intro x; exact le_refl x
  | cons a l ih => intro x; exact le_trans (ih (min x a)) (min_le_left x a)

lemma foldl_min_le_mem : ∀ (l : List Nat) (x y : Nat), y ∈ l → l.foldl min x ≤ y := by
  intro l
  induction l with
  | nil => intro x y hy; cases hy
  | cons a l ih =>
    intro x y hy
    rcases List.mem_cons.mp hy with h | h
    · subst h
      exact le_trans (foldl_min_le_init l (min x y)) (min_le_right x y)
    · exact ih (min x a) y h

lemma foldl_min_mem : ∀ (l : List Nat) (x : Nat), l.foldl min x = x ∨ l.foldl min x ∈ l := by
  intro l
  induction l with
  | nil => intro x; left; rfl
  | cons a l ih =>
    intro x
    rcases ih (min x a) with h | h
    · rcases min_choice x a with h2 | h2
      · left; rw [List.foldl_cons, h, h2]
      · right; rw [List.foldl_cons, h, h2]; exact List.mem_cons_self a l
    · right; exact List.mem_cons_of_mem a h

lemma listMin_le (l : List Nat) (x : Nat) (hx : x ∈ l) : listMin l ≤ x := by
  cases l with
  | nil => cases hx
  | cons a l =>
    rcases List.mem_cons.mp hx with h | h
    · subst h; exact foldl_min_le_init l x
    · exact foldl_min_le_mem l a x h

lemma listMin_mem (l : List Nat) (hl : l ≠ []) : listMin l ∈ l := by
  cases l with
  | nil => exact absurd rfl hl
  | cons a l =>
    rcases foldl_min_mem l a with h | h
    · rw [listMin, h]; exact List.mem_cons_self a l
    · rw [listMin]; exact List.mem_cons_of_mem a h

lemma foldP_init_le (W : Vocab) :
    ∀ (l : List (List Char)) (x : List Char),
      P W x ≤ P W (l.foldl (fun b w => if P W b < P W w then w else b) x) := by
  intro l
  induction l with
  | nil => intro x; exact le_refl _
  | cons a l ih =>
    intro x
    refine le_trans ?_ (ih (if P W x < P W a then a else x))
    by_cases h : P W x < P W a
    · rw [if_pos h]; exact le_of_lt h
    · rw [if_neg h]

lemma foldP_mem_le (W : Vocab) :
    ∀ (l : List (List Char)) (x y : List Char), y ∈ l →
      P W y ≤ P W (l.foldl (fun b w => if P W b < P W w then w else b) x) := by
  intro l
  induction l with
  | nil => intro x y hy; cases hy
  | cons a l ih =>
    intro x y hy
    rcases List.mem_cons.mp hy with h | h
    · subst h
      refine le_trans ?_ (foldP_init_le W l (if P W x < P W y then y else x))
      by_cases h : P W x < P W y
      · rw [if_pos h]
      · rw [if_neg h]; exact le_of_not_lt h
    · exact ih (if P W x < P W a then a else x) y h

lemma foldP_mem (W : Vocab) :
    ∀ (l : List (List Char)) (x : List Char),
      l.foldl (fun b w => if P W b < P W w then w else b) x = x ∨
        l.foldl (fun b w => if P W b < P W w then w else b) x ∈ l := by
  intro l
  induction l with
  | nil => intro x; left; rfl
  | cons a l ih =>
    intro x
    rcases ih (if P W x < P W a then a else x) with h | h
    · rw [List.foldl_cons, h]
      by_cases h2 : P W x < P W a
      · right; rw [if_pos h2]; exact List.mem_cons_self a l
      · left; rw [if_neg h2]
    · right; rw [List.foldl_cons]; exact List.mem_cons_of_mem a h

lemma maxByP_spec (W : Vocab) (l : List (List Char)) (hl : l ≠ []) :
    ∃ b, maxByP W l = some b ∧ b ∈ l ∧ ∀ y ∈ l, P W y ≤ P W b := by
  cases l with
  | nil => exact absurd rfl hl
  | cons a l =>
    refine ⟨l.foldl (fun b w => if P W b < P W w then w else b) a, rfl, ?_, ?_⟩
    · rcases foldP_mem W l a with h | h
      · rw [h]; exact List.mem_cons_self a l
      · exact List.mem_cons_of_mem a h
    · intro y hy
      rcases List.mem_cons.mp hy with h | h
      · subst h; exact foldP_init_le W l y
      · exact foldP_mem_le W l a y h

lemma closestAux_some_spec (word : List Char) :
    ∀ (ws : List (List Char)) (b0 : List Char), ∀ d0, d0 = edit_distance word b0 →
      ∃ b d, closestAux word ws (some (b0, d0)) = some (b, d) ∧
        d = edit_distance word b ∧ (b ∈ ws ∨ b = b0) ∧ d ≤ d0 ∧
        ∀ w ∈ ws, d ≤ edit_distance word w := by
  intro ws
  induction ws with
  | nil =>
    intro b0 d0 hd0
    exact ⟨b0, d0, rfl, hd0, Or.inr rfl, le_refl d0, by intro w hw; cases hw⟩
  | cons w ws ih =>
    intro b0 d0 hd0
    simp only [closestAux]
    by_cases hup : edit_distance word w < d0
    · rw [if_pos (by simpa using hup)]
      by_cases h0 : edit_distance word w = 0
      · rw [if_pos h0]
        refine ⟨w, edit_distance word w, rfl, rfl, Or.inl (List.mem_cons_self w ws),
          le_of_lt hup, ?_⟩
        intro w2 hw2
        rw [h0]
        exact Nat.zero_le _
      · rw [if_neg h0]
        obtain ⟨b, d, heq, hdd, hmem, hle, hall⟩ := ih w (edit_distance word w) rfl
        refine ⟨b, d, heq, hdd, ?_, le_trans hle (le_of_lt hup), ?_⟩
        · rcases hmem with h | h
          · exact Or.inl (List.mem_cons_of_mem w h)
          · exact Or.inl (h ▸ List.mem_cons_self w ws)
        · intro w2 hw2
          rcases List.mem_cons.mp hw2 with h | h
          · subst h; exact hle
          · exact hall w2 h
    · rw [if_neg (by simpa using hup)]
      obtain ⟨b, d, heq, hdd, hmem, hle, hall⟩ := ih b0 d0 hd0
      refine ⟨b, d, heq, hdd, ?_, hle, ?_⟩
      · rcases hmem with h | h
        · exact Or.inl (List.mem_cons_of_mem w h)
        · exact Or.inr h
      · intro w2 hw2
        rcases List.mem_cons.mp hw2 with h | h
        · subst h; exact le_trans hle (le_of_not_lt hup)
        · exact hall w2 h

lemma closestAux_none_spec (word : List Char) (ws : List (List Char)) (hws : ws ≠ []) :
    ∃ b d, closestAux word ws none = some (b, d) ∧ d = edit_distance word b ∧
      b ∈ ws ∧ ∀ w ∈ ws, d ≤ edit_distance word w := by
  cases ws with
  | nil => exact absurd rfl hws
  | cons w ws =>
    simp only [closestAux]
    by_cases h0 : edit_distance word w = 0
    · rw [if_pos h0]
      refine ⟨w, edit_distance word w, rfl, rfl, List.mem_cons_self w ws, ?_⟩
      intro w2 hw2
      rw [h0]
      exact Nat.zero_le _
    · rw [if_neg h0]
      obtain ⟨b, d, heq, hdd, hmem, hle, hall⟩ := closestAux_some_spec word ws w _ rfl
      refine ⟨b, d, heq, hdd, ?_, ?_⟩
      · rcases hmem with h | h
        · exact List.mem_cons_of_mem w h
        · exact h ▸ List.mem_cons_self w ws
      · intro w2 hw2
        rcases List.mem_cons.mp hw2 with h | h
        · subst h; exact hle
        · exact hall w2 h

lemma closestAux_nil_none (word : List Char) : closestAux word [] none = none := rfl

/-- The fallback scan returns `None` exactly on an empty vocabulary. -/
lemma closest_none_iff (W : Vocab) (word : List Char) :
    closest_by_edit_distance W word = none ↔ keys W = [] := by
  constructor
  · intro h
    by_contra hk
    obtain ⟨b, d, heq, -, -, -⟩ := closestAux_none_spec word (keys W) hk
    rw [closest_by_edit_distance, heq] at h
    cases h
  · intro h
    rw [closest_by_edit_distance, h, closestAux_nil_none]
    rfl

/-- On a non-empty vocabulary the fallback scan returns a key at minimal edit
distance from `word`. -/
lemma closest_spec (W : Vocab) (word : List Char) (hk : keys W ≠ []) :
    ∃ c, closest_by_edit_distance W word = some c ∧ c ∈ keys W ∧
      ∀ k ∈ keys W, edit_distance word c ≤ edit_distance word k := by
  obtain ⟨b, d, heq, hdd, hmem, hall⟩ := closestAux_none_spec word (keys W) hk
  refine ⟨b, ?_, hmem, ?_⟩
  · rw [closest_by_edit_distance, heq]; rfl
  · intro k hk2
    have := hall k hk2
    rw [hdd] at this
    exact this

/-- `candidates` always returns a non-empty set. -/
lemma candidates_ne_nil (W : Vocab) (w : List Char) : candidates W w ≠ [] := by
  rw [candidates]
  by_cases h1 : memW W w = true
  · rw [if_pos h1]; simp
  · rw [if_neg h1]
    by_cases h2 : known W (edits1 w) ≠ []
    · rw [if_pos h2]; exact h2
    · rw [if_neg h2]
      by_cases h3 : known W (edits2 w) ≠ []
      · rw [if_pos h3]; exact h3
      · rw [if_neg h3]
        cases hc : closest_by_edit_distance W w <;> simp

/-- Every candidate is a vocabulary key or the queried word itself. -/
lemma candidates_subset (W : Vocab) (w : List Char) :
    ∀ c ∈ candidates W w, c ∈ keys W ∨ c = w := by
  intro c hc
  rw [candidates] at hc
  by_cases h1 : memW W w = true
  · rw [if_pos h1] at hc
    right
    simpa using hc
  · rw [if_neg h1] at hc
    by_cases h2 : known W (edits1 w) ≠ []
    · rw [if_pos h2] at hc
      left
      have := (List.mem_filter.mp hc).2
      exact (memW_iff W c).mp this
    · rw [if_neg h2] at hc
      by_cases h3 : known W (edits2 w) ≠ []
      · rw [if_pos h3] at hc
        left
        have := (List.mem_filter.mp hc).2
        exact (memW_iff W c).mp this
      · rw [if_neg h3] at hc
        by_cases hk : keys W = []
        · rw [(closest_none_iff W w).mpr hk] at hc
          right; simpa using hc
        · obtain ⟨c2, heq, hmem, -⟩ := closest_spec W w hk
          rw [heq] at hc
          left
          have : c = c2 := by simpa using hc
          exact this ▸ hmem

lemma closestCands_mem (W : Vocab) (low c : List Char) :
    c ∈ closestCands W low ↔
      c ∈ candidates W low ∧ edit_distance low c = minDistOf W low := by
  simp [closestCands, List.mem_filter]

lemma minDistOf_le (W : Vocab) (low : List Char) :
    ∀ c ∈ candidates W low, minDistOf W low ≤ edit_distance low c := by
  intro c hc
  exact listMin_le _ _ (List.mem_map_of_mem (edit_distance low) hc)

lemma minDistOf_attained (W : Vocab) (low : List Char) :
    ∃ c ∈ candidates W low, edit_distance low c = minDistOf W low := by
  have hne : (candidates W low).map (edit_distance low) ≠ [] := by
    simpa using candidates_ne_nil W low
  obtain ⟨c, hc, he⟩ := List.mem_map.mp (listMin_mem _ hne)
  exact ⟨c, hc, he⟩

lemma closestCands_ne_nil (W : Vocab) (low : List Char) : closestCands W low ≠ [] := by
  obtain ⟨c, hc, he⟩ := minDistOf_attained W low
  intro hnil
  have : c ∈ closestCands W low := (closestCands_mem W low c).mpr ⟨hc, he⟩
  rw [hnil] at this
  cases this

/-- The selected `best` lies in the tie set, attains the minimal distance,
and maximises `P` on the tie set. -/
lemma bestOf_spec (W : Vocab) (word low : List Char) :
    bestOf W word low ∈ candidates W low ∧
    edit_distance low (bestOf W word low) = minDistOf W low ∧
    (∀ c ∈ closestCands W low, P W c ≤ P W (bestOf W word low)) := by
  obtain ⟨b, hb, hmem, hmax⟩ := maxByP_spec W (closestCands W low) (closestCands_ne_nil W low)
  have hbest : bestOf W word low = b := by rw [bestOf, hb]
  rw [hbest]
  obtain ⟨hc, hd⟩ := (closestCands_mem W low b).mp hmem
  exact ⟨hc, hd, hmax⟩

lemma correction_eq_bestOf (W : Vocab) (word : List Char) (hw : word ≠ []) :
    correction W word =
      if firstUpper word then pythonCapitalize (bestOf W word (lowerStr word))
      else bestOf W word (lowerStr word) := by
  rw [correction, if_neg hw]

/-- On a word already in the vocabulary the candidate set is the singleton
and `best` is the word itself. -/
lemma bestOf_of_memW (W : Vocab) (word w : List Char) (h : memW W w = true) :
    bestOf W word w = w := by
  have hc : candidates W w = [w] := by rw [candidates, if_pos h]
  rw [bestOf, closestCands, hc, minDistOf, hc]
  simp [listMin, maxByP]

/-- `correction` on a word whose lowercase form is a vocabulary key: the
lowercase form, recapitalised when the original started uppercase. -/
lemma correction_of_known (W : Vocab) (w : List Char) (hw : w ≠ [])
    (h : memW W (lowerStr w) = true) :
    correction W w =
      if firstUpper w then pythonCapitalize (lowerStr w) else lowerStr w := by
  rw [correction_eq_bestOf W w hw, bestOf_of_memW W w (lowerStr w) h]

/-! ## Character-level facts -/

lemma charToNat_ofNat {n : Nat} (h : n < 0xD800) : (Char.ofNat n).toNat = n := by
  unfold Char.ofNat
  rw [dif_pos (Or.inl h)]
  rfl

lemma char_eq_of_toNat {a b : Char} (h : a.toNat = b.toNat) : a = b :=
  Char.eq_of_val_eq (UInt32.ext h)

lemma toNat_toLowerChar (c : Char) : (toLowerChar c).toNat =
    if 0x41 ≤ c.toNat ∧ c.toNat ≤ 0x5A then c.toNat + 0x20
    else if 0xC0 ≤ c.toNat ∧ c.toNat ≤ 0xDE ∧ c.toNat ≠ 0xD7 then c.toNat + 0x20
    else if c.toNat = 0x178 then 0xFF
    else c.toNat := by
  rw [toLowerChar]
  split_ifs with h1 h2 h3
  · exact charToNat_ofNat (by omega)
  · exact charToNat_ofNat (by omega)
  · exact charToNat_ofNat (by norm_num)
  · rfl

lemma toNat_toUpperChar (c : Char) : (toUpperChar c).toNat =
    if 0x61 ≤ c.toNat ∧ c.toNat ≤ 0x7A then c.toNat - 0x20
    else if 0xE0 ≤ c.toNat ∧ c.toNat ≤ 0xFE ∧ c.toNat ≠ 0xF7 then c.toNat - 0x20
    else if c.toNat = 0xFF then 0x178
    else if c.toNat = 0xB5 then 0x39C
    else c.toNat := by
  rw [toUpperChar]
  split_ifs with h1 h2 h3 h4
  · exact charToNat_ofNat (by omega)
  · exact charToNat_ofNat (by omega)
  · exact charToNat_ofNat (by norm_num)
  · exact charToNat_ofNat (by norm_num)
  · rfl

lemma toLowerChar_idem (c : Char) : toLowerChar (toLowerChar c) = toLowerChar c := by
  apply char_eq_of_toNat
  rw [toNat_toLowerChar (toLowerChar c), toNat_toLowerChar c]
  split_ifs <;> omega

lemma lowerStr_idem (s : List Char) : lowerStr (lowerStr s) = lowerStr s := by
  rw [lowerStr, lowerStr, List.map_map]
  exact List.map_congr_left (fun c _ => toLowerChar_idem c)

/-- Case analysis over the character range the program's case tables live in:
a decidable fact checked for every code point below U+0200 transfers to any
character below that bound. -/
lemma char_bounded (Q : Char → Prop) [DecidablePred Q] (c : Char) (hlt : c.toNat < 0x200)
    (H : ∀ n : Fin 0x200, Q (Char.ofNat n.val)) : Q c := by
  have := H ⟨c.toNat, hlt⟩
  rwa [Char.ofNat_toNat] at this

lemma toNat_lt_of_isUpper (c : Char) (h : isUpperChar c = true) : c.toNat < 0x200 := by
  simp only [isUpperChar, Bool.or_eq_true, Bool.and_eq_true, decide_eq_true_eq] at h
  omega

set_option maxRecDepth 10000 in
/-- For an uppercase character, lowercasing the title-case of its lowercase
form gives back its lowercase form (the ß anomaly cannot arise: no uppercase
character lowercases to ß). -/
lemma map_lower_title_lower (c : Char) (h : isUpperChar c = true) :
    (titleChars (toLowerChar c)).map toLowerChar = [toLowerChar c] :=
  char_bounded
    (fun x => isUpperChar x = true →
      (titleChars (toLowerChar x)).map toLowerChar = [toLowerChar x])
    c (toNat_lt_of_isUpper c h) (by decide) h

/-- Lowercasing is invariant under the case-restoration step of `correction`:
the suggestion, recapitalised or not, lowercases back to the lowercased
original. -/
lemma lower_canon (p : List Char) :
    lowerStr (if firstUpper p then pythonCapitalize (lowerStr p) else lowerStr p) =
      lowerStr p := by
  by_cases h : firstUpper p = true
  · rw [if_pos h]
    cases p with
    | nil => cases h
    | cons c rest =>
      have hc : isUpperChar c = true := h
      simp only [lowerStr, List.map_cons, pythonCapitalize, List.map_append, List.map_map]
      rw [map_lower_title_lower c hc]
      simp [Function.comp_def, toLowerChar_idem]
  · rw [if_neg h]
    exact lowerStr_idem p

/-! ## Facts about `splitWords` and `csFold` -/

lemma dropWhile_length_le (p : Char → Bool) :
    ∀ l : List Char, (l.dropWhile p).length ≤ l.length := by
  intro l
  induction l with
  | nil => exact le_refl 0
  | cons a l ih =>
    rw [List.dropWhile_cons]
    by_cases hp : p a = true
    · rw [if_pos hp]
      exact le_trans ih (Nat.le_succ _)
    · rw [if_neg hp]

lemma dropWhile_head_not {p : Char → Bool} :
    ∀ {l : List Char} {c : Char} {cs : List Char}, l.dropWhile p = c :: cs → p c = false := by
  intro l
  induction l with
  | nil => intro c cs h; cases h
  | cons a l ih =>
    intro c cs h
    rw [List.dropWhile_cons] at h
    by_cases hp : p a = true
    · rw [if_pos hp] at h
      exact ih h
    · rw [if_neg hp] at h
      cases h
      simpa using hp

/-- Concatenating the parts of the split reproduces the text exactly. -/
lemma splitWordsF_join :
    ∀ (fuel : Nat) (text : List Char), text.length < fuel →
      (splitWordsF fuel text).flatten = text := by
  intro fuel
  induction fuel with
  | zero => intro text h; omega
  | succ fuel ih =>
    intro text hlen
    rw [splitWordsF]
    cases hdrop : text.dropWhile isWordChar with
    | nil =>
      simp only [List.flatten_cons, List.flatten_nil, List.append_nil]
      conv_rhs => rw [← List.takeWhile_append_dropWhile isWordChar text]
      rw [hdrop, List.append_nil]
    | cons r rs =>
      have hr : isWordChar r = false := dropWhile_head_not hdrop
      have hlen2 : ((r :: rs).dropWhile (fun c => !isWordChar c)).length < fuel := by
        have h1 : (r :: rs).dropWhile (fun c => !isWordChar c) =
            rs.dropWhile (fun c => !isWordChar c) := by
          rw [List.dropWhile_cons, if_pos (by simp [hr])]
        have h2 : (rs.dropWhile (fun c => !isWordChar c)).length ≤ rs.length :=
          dropWhile_length_le _ _
        have h3 : (r :: rs).length ≤ text.length := by
          rw [← hdrop]
          exact dropWhile_length_le _ _
        simp only [List.length_cons] at h3
        rw [h1]
        omega
      simp only [List.flatten_cons]
      rw [ih _ hlen2]
      rw [List.takeWhile_append_dropWhile]
      conv_rhs => rw [← List.takeWhile_append_dropWhile isWordChar text]
      rw [hdrop]

lemma splitWords_join (text : List Char) : (splitWords text).flatten = text :=
  splitWordsF_join (text.length + 1) text (Nat.lt_succ_self _)

/-- Every part is a run of word characters or a non-empty run of non-word
characters. -/
lemma splitWordsF_parts :
    ∀ (fuel : Nat) (text : List Char), text.length < fuel →
      ∀ p ∈ splitWordsF fuel text,
        p.all isWordChar = true ∨ (p ≠ [] ∧ p.all (fun c => !isWordChar c) = true) := by
  intro fuel
  induction fuel with
  | zero => intro text h; omega
  | succ fuel ih =>
    intro text hlen p hp
    rw [splitWordsF] at hp
    cases hdrop : text.dropWhile isWordChar with
    | nil =>
      rw [hdrop] at hp
      simp only [List.mem_singleton] at hp
      subst hp
      left
      simp only [List.all_eq_true]
      intro c hc
      simpa using List.mem_takeWhile_imp hc
    | cons r rs =>
      rw [hdrop] at hp
      have hr : isWordChar r = false := dropWhile_head_not hdrop
      rcases List.mem_cons.mp hp with h | hp2
      · subst h
        left
        simp only [List.all_eq_true]
        intro c hc
        simpa using List.mem_takeWhile_imp hc
      rcases List.mem_cons.mp hp2 with h | hp3
      · subst h
        right
        constructor
        · rw [List.takeWhile_cons, if_pos (by simp [hr])]
          simp
        · simp only [List.all_eq_true]
          intro c hc
          simpa using List.mem_takeWhile_imp hc
      · have hlen2 : ((r :: rs).dropWhile (fun c => !isWordChar c)).length < fuel := by
          have h1 : (r :: rs).dropWhile (fun c => !isWordChar c) =
              rs.dropWhile (fun c => !isWordChar c) := by
            rw [List.dropWhile_cons, if_pos (by simp [hr])]
          have h2 : (rs.dropWhile (fun c => !isWordChar c)).length ≤ rs.length :=
            dropWhile_length_le _ _
          have h3 : (r :: rs).length ≤ text.length := by
            rw [← hdrop]
            exact dropWhile_length_le _ _
          simp only [List.length_cons] at h3
          rw [h1]
          omega
        exact ih _ hlen2 p hp3

lemma splitWords_parts (text : List Char) :
    ∀ p ∈ splitWords text,
      p.all isWordChar = true ∨ (p ≠ [] ∧ p.all (fun c => !isWordChar c) = true) :=
  splitWordsF_parts (text.length + 1) text (Nat.lt_succ_self _)

lemma csFold_fst (W : Vocab) :
    ∀ (ps accP : List (List Char)) (accM : List (List Char × List Char)),
      (csFold W ps accP accM).1 =
        accP ++ ps.map (fun p => if wordFull p then correction W p else p) := by
  intro ps
  induction ps with
  | nil => intro accP accM; simp [csFold]
  | cons p ps ih =>
    intro accP accM
    rw [csFold]
    by_cases hw : wordFull p = true
    · rw [if_pos hw]
      rw [ih]
      simp [hw]
    · rw [if_neg hw]
      rw [ih]
      simp [hw]

/-- When every word part is a fixed point of `correction`, the loop copies the
parts and records nothing. -/
lemma csFold_id (W : Vocab) :
    ∀ (ps accP : List (List Char)) (accM : List (List Char × List Char)),
      (∀ p ∈ ps, wordFull p = true → correction W p = p) →
      csFold W ps accP accM = (accP ++ ps, accM) := by
  intro ps
  induction ps with
  | nil => intro accP accM h; simp [csFold]
  | cons p ps ih =>
    intro accP accM h
    simp only [csFold]
    by_cases hw : wordFull p = true
    · rw [if_pos hw]
      have hc : correction W p = p := h p (List.mem_cons_self p ps) hw
      rw [hc, if_neg (by simp)]
      rw [ih _ _ (fun q hq => h q (List.mem_cons_of_mem p hq))]
      simp
    · rw [if_neg hw]
      rw [ih _ _ (fun q hq => h q (List.mem_cons_of_mem p hq))]
      simp

lemma dictInsert_coh {f : List Char → List Char} :
    ∀ {m : List (List Char × List Char)} {k : List Char},
      (∀ e ∈ m, e.2 = f e.1) → ∀ e ∈ dictInsert m k (f k), e.2 = f e.1 := by
  intro m
  induction m with
  | nil =>
    intro k _ e he
    simp only [dictInsert, List.mem_singleton] at he
    subst he; rfl
  | cons a rest ih =>
    intro k hcoh e he
    rw [dictInsert] at he
    by_cases hk : a.1 = k
    · rw [if_pos hk] at he
      rcases List.mem_cons.mp he with h | h
      · subst h; rfl
      · exact hcoh e (List.mem_cons_of_mem a h)
    · rw [if_neg hk] at he
      rcases List.mem_cons.mp he with h | h
      · subst h; exact hcoh a (List.mem_cons_self a rest)
      · exact ih (fun e2 he2 => hcoh e2 (List.mem_cons_of_mem a he2)) e h

lemma dictInsert_mem_iff {f : List Char → List Char} :
    ∀ {m : List (List Char × List Char)} {k : List Char},
      (∀ e ∈ m, e.2 = f e.1) →
      ∀ a b, ((a, b) ∈ dictInsert m k (f k) ↔ (a, b) ∈ m ∨ (a = k ∧ b = f k)) := by
  intro m
  induction m with
  | nil =>
    intro k _ a b
    simp [dictInsert, Prod.ext_iff]
  | cons e rest ih =>
    intro k hcoh a b
    obtain ⟨k2, v2⟩ := e
    have hv2 : v2 = f k2 := hcoh (k2, v2) (List.mem_cons_self _ rest)
    rw [dictInsert]
    by_cases hk : k2 = k
    · rw [if_pos hk]
      subst hk
      subst hv2
      simp only [List.mem_cons]
      constructor
      · rintro (h | h)
        · right
          have : a = k2 ∧ b = f k2 := by simpa [Prod.ext_iff] using h
          exact this
        · exact Or.inl (Or.inr h)
      · rintro ((h | h) | h)
        · left; exact h
        · right; exact h
        · left
          simp [Prod.ext_iff, h.1, h.2]
    · rw [if_neg hk]
      simp only [List.mem_cons]
      rw [ih (fun e2 he2 => hcoh e2 (List.mem_cons_of_mem _ he2)) a b]
      tauto

lemma csFold_mem_map (W : Vocab) :
    ∀ (ps accP : List (List Char)) (accM : List (List Char × List Char)),
      (∀ e ∈ accM, e.2 = correction W e.1) →
      ∀ k v, ((k, v) ∈ (csFold W ps accP accM).2 ↔
        (k, v) ∈ accM ∨
          (k ∈ ps ∧ wordFull k = true ∧ v = correction W k ∧ lowerStr v ≠ lowerStr k)) := by
  intro ps
  induction ps with
  | nil =>
    intro accP accM hcoh k v
    simp [csFold]
  | cons p ps ih =>
    intro accP accM hcoh k v
    simp only [csFold]
    by_cases hw : wordFull p = true
    · rw [if_pos hw]
      by_cases hdif : lowerStr (correction W p) ≠ lowerStr p
      · rw [if_pos hdif]
        have hcoh2 : ∀ e ∈ dictInsert accM p (correction W p), e.2 = correction W e.1 :=
          dictInsert_coh hcoh
        rw [ih _ _ hcoh2 k v]
        rw [dictInsert_mem_iff hcoh k v]
        simp only [List.mem_cons]
        constructor
        · rintro ((h | ⟨h1, h2⟩) | ⟨h1, h2, h3, h4⟩)
          · exact Or.inl h
          · subst h1
            exact Or.inr ⟨Or.inl rfl, hw, h2, h2 ▸ hdif⟩
          · exact Or.inr ⟨Or.inr h1, h2, h3, h4⟩
        · rintro (h | ⟨(h1 | h1), h2, h3, h4⟩)
          · exact Or.inl (Or.inl h)
          · subst h1
            exact Or.inl (Or.inr ⟨rfl, h3⟩)
          · exact Or.inr ⟨h1, h2, h3, h4⟩
      · rw [if_neg hdif]
        push_neg at hdif
        rw [ih _ _ hcoh k v]
        simp only [List.mem_cons]
        constructor
        · rintro (h | ⟨h1, h2, h3, h4⟩)
          · exact Or.inl h
          · exact Or.inr ⟨Or.inr h1, h2, h3, h4⟩
        · rintro (h | ⟨(h1 | h1), h2, h3, h4⟩)
          · exact Or.inl h
          · subst h1
            rw [h3] at h4
            exact absurd hdif h4
          · exact Or.inr ⟨h1, h2, h3, h4⟩
    · rw [if_neg hw]
      rw [ih _ _ hcoh k v]
      simp only [List.mem_cons]
      constructor
      · rintro (h | ⟨h1, h2, h3, h4⟩)
        · exact Or.inl h
        · exact Or.inr ⟨Or.inr h1, h2, h3, h4⟩
      · rintro (h | ⟨(h1 | h1), h2, h3, h4⟩)
        · exact Or.inl h
        · subst h1
          exact absurd h2 hw
        · exact Or.inr ⟨h1, h2, h3, h4⟩

/-- The change map of `correct_sentence` holds exactly the word parts whose
correction differs from them ignoring case. -/
lemma correct_sentence_map_iff (W : Vocab) (text : List Char) (k v : List Char) :
    (k, v) ∈ (correct_sentence W text).2 ↔
      (k ∈ splitWords text ∧ wordFull k = true ∧ v = correction W k ∧
        lowerStr v ≠ lowerStr k) := by
  rw [correct_sentence]
  simp only []
  rw [csFold_mem_map W (splitWords text) [] [] (by intro e he; cases he) k v]
  simp

/-! ## Provenance of candidate characters, and the empty vocabulary -/

lemma splits_parts (w : List Char) : ∀ p ∈ splits w, p.1 ++ p.2 = w := by
  intro p hp
  simp only [splits, List.mem_map, List.mem_range] at hp
  obtain ⟨i, -, rfl⟩ := hp
  exact List.take_append_drop i w

/-- Every character of an `edits1` string comes from the word or from
`_LETTERS`. -/
lemma mem_edits1_chars {w e : List Char} (he : e ∈ edits1 w) :
    ∀ c ∈ e, c ∈ w ∨ c ∈ pyLETTERS := by
  intro c hc
  rw [edits1] at he
  rcases List.mem_append.mp he with he | he4
  rcases List.mem_append.mp he with he | he3
  rcases List.mem_append.mp he with he1 | he2
  · -- deletes
    obtain ⟨⟨L, R⟩, hp, hfe⟩ := List.mem_filterMap.mp he1
    have hLR : L ++ R = w := splits_parts w (L, R) hp
    cases R with
    | nil => cases hfe
    | cons r0 rt =>
      have he : e = L ++ rt := by simpa using hfe.symm
      subst he
      left
      rw [← hLR]
      rcases List.mem_append.mp hc with h | h
      · exact List.mem_append.mpr (Or.inl h)
      · exact List.mem_append.mpr (Or.inr (List.mem_cons_of_mem r0 h))
  · -- transposes
    obtain ⟨⟨L, R⟩, hp, hfe⟩ := List.mem_filterMap.mp he2
    have hLR : L ++ R = w := splits_parts w (L, R) hp
    cases R with
    | nil => cases hfe
    | cons r0 rt =>
      cases rt with
      | nil => cases hfe
      | cons r1 rr =>
        have he : e = L ++ r1 :: r0 :: rr := by simpa using hfe.symm
        subst he
        left
        rw [← hLR]
        rcases List.mem_append.mp hc with h | h
        · exact List.mem_append.mpr (Or.inl h)
        · refine List.mem_append.mpr (Or.inr ?_)
          rcases List.mem_cons.mp h with h | h
          · exact h ▸ List.mem_cons_of_mem _ (List.mem_cons_self _ _)
          rcases List.mem_cons.mp h with h | h
          · exact h ▸ List.mem_cons_self _ _
          · exact List.mem_cons_of_mem _ (List.mem_cons_of_mem _ h)
  · -- replaces
    obtain ⟨Lst, hL, heL⟩ := List.mem_flatten.mp he3
    obtain ⟨⟨L, R⟩, hp, hfe⟩ := List.mem_filterMap.mp hL
    have hLR : L ++ R = w := splits_parts w (L, R) hp
    cases R with
    | nil => cases hfe
    | cons r0 rt =>
      have hLv : Lst = pyLETTERS.map (fun ch => L ++ ch :: rt) := by simpa using hfe.symm
      subst hLv
      obtain ⟨ch, hch, he⟩ := List.mem_map.mp heL
      subst he
      rcases List.mem_append.mp hc with h | h
      · left
        rw [← hLR]
        exact List.mem_append.mpr (Or.inl h)
      rcases List.mem_cons.mp h with h | h
      · right; exact h ▸ hch
      · left
        rw [← hLR]
        exact List.mem_append.mpr (Or.inr (List.mem_cons_of_mem r0 h))
  · -- inserts
    obtain ⟨Lst, hL, heL⟩ := List.mem_flatten.mp he4
    obtain ⟨⟨L, R⟩, hp, hLv⟩ := List.mem_map.mp hL
    have hLR : L ++ R = w := splits_parts w (L, R) hp
    subst hLv
    obtain ⟨ch, hch, he⟩ := List.mem_map.mp heL
    subst he
    rcases List.mem_append.mp hc with h | h
    · left
      rw [← hLR]
      exact List.mem_append.mpr (Or.inl h)
    rcases List.mem_cons.mp h with h | h
    · right; exact h ▸ hch
    · left
      rw [← hLR]
      exact List.mem_append.mpr (Or.inr h)

lemma mem_edits2_chars {w e : List Char} (he : e ∈ edits2 w) :
    ∀ c ∈ e, c ∈ w ∨ c ∈ pyLETTERS := by
  intro c hc
  rw [edits2] at he
  obtain ⟨L, hL, heL⟩ := List.mem_flatten.mp he
  obtain ⟨e1, he1, hLv⟩ := List.mem_map.mp hL
  subst hLv
  rcases mem_edits1_chars heL c hc with h | h
  · exact mem_edits1_chars he1 c h
  · right; exact h

/-- If some character occurs in every vocabulary key but neither in the word
nor in the alphabet, no `edits1`/`edits2` string of the word is known. -/
lemma known_edits_nil_of_missing_char (W : Vocab) (w : List Char) (ch : Char)
    (hkeys : ∀ k ∈ keys W, ch ∈ k) (hw : ch ∉ w) (hL : ch ∉ pyLETTERS) :
    known W (edits1 w) = [] ∧ known W (edits2 w) = [] := by
  constructor
  · rw [known, List.filter_eq_nil_iff]
    intro e he
    intro hmem
    have hek : e ∈ keys W := (memW_iff W e).mp hmem
    rcases mem_edits1_chars he ch (hkeys e hek) with h | h
    · exact hw h
    · exact hL h
  · rw [known, List.filter_eq_nil_iff]
    intro e he
    intro hmem
    have hek : e ∈ keys W := (memW_iff W e).mp hmem
    rcases mem_edits2_chars he ch (hkeys e hek) with h | h
    · exact hw h
    · exact hL h

lemma known_empty_vocab (l : List (List Char)) : known ([] : Vocab) l = [] := by
  rw [known, List.filter_eq_nil_iff]
  intro e he hmem
  have : e ∈ keys ([] : Vocab) := (memW_iff _ e).mp hmem
  cases this

/-- With an empty vocabulary every word falls through to the full scan, which
returns the word itself. -/
lemma candidates_empty_vocab (w : List Char) : candidates ([] : Vocab) w = [w] := by
  rw [candidates]
  rw [if_neg (by rw [memW_iff]; intro h; cases h)]
  rw [known_empty_vocab, known_empty_vocab]
  simp only [ne_eq, not_true_eq_false, if_false]
  rw [(closest_none_iff ([] : Vocab) w).mpr rfl]

lemma bestOf_of_candidates_singleton (W : Vocab) (word low c : List Char)
    (h : candidates W low = [c]) : bestOf W word low = c := by
  rw [bestOf, closestCands, h, minDistOf, h]
  simp [listMin, maxByP]

/-- With an empty vocabulary, `correction` only normalises the case of the
word. -/
lemma correction_empty_vocab (w : List Char) :
    correction ([] : Vocab) w =
      if firstUpper w then pythonCapitalize (lowerStr w) else lowerStr w := by
  by_cases hw : w = []
  · subst hw
    rw [correction, if_pos rfl]
    simp [firstUpper, lowerStr]
  · rw [correction_eq_bestOf _ _ hw,
      bestOf_of_candidates_singleton _ _ _ _ (candidates_empty_vocab (lowerStr w))]

/-! ## The claims -/

/-- C1: for every non-empty word, `correction` lowercases it, takes the
candidate set, keeps the candidates at minimal edit distance from the
lowercased word, and returns one of them with maximal probability (case
restored); frequency never overrides a closer candidate.  With vocabulary
`{casa:10, caso:1}`, `correction("caxa") = "casa"`; with `{rato:5, pato:2}`,
`correction("xato") = "rato"`. -/
theorem claim1_distance_then_frequency :
    (∀ (W : Vocab) (w : List Char), w ≠ [] →
      bestOf W w (lowerStr w) ∈ candidates W (lowerStr w) ∧
      (∀ c ∈ candidates W (lowerStr w),
        edit_distance (lowerStr w) (bestOf W w (lowerStr w)) ≤ edit_distance (lowerStr w) c) ∧
      (∀ c ∈ candidates W (lowerStr w),
        edit_distance (lowerStr w) c = edit_distance (lowerStr w) (bestOf W w (lowerStr w)) →
          P W c ≤ P W (bestOf W w (lowerStr w))) ∧
      correction W w = (if firstUpper w then pythonCapitalize (bestOf W w (lowerStr w))
        else bestOf W w (lowerStr w))) ∧
    correction [("casa".data, 10), ("caso".data, 1)] "caxa".data = "casa".data ∧
    correction [("rato".data, 5), ("pato".data, 2)] "xato".data = "rato".data := by
  refine ⟨?_, by decide, by decide⟩
  intro W w hw
  obtain ⟨hmem, hd, hmax⟩ := bestOf_spec W w (lowerStr w)
  refine ⟨hmem, ?_, ?_, correction_eq_bestOf W w hw⟩
  · intro c hc
    rw [hd]
    exact minDistOf_le W (lowerStr w) c hc
  · intro c hc hce
    apply hmax
    rw [closestCands_mem]
    exact ⟨hc, by rw [hce, hd]⟩

/-- C2: `edit_distance a b` is exactly the least number of single-character
insertions, deletions and substitutions (cost 1 each, 0 for matching
characters) transforming `a` into `b`; hence `edit_distance a a = 0` and
`edit_distance` is symmetric. -/
theorem claim2_edit_distance_minimal :
    ∀ a b : List Char,
      (Edits a b (edit_distance a b) ∧ ∀ n, Edits a b n → edit_distance a b ≤ n) ∧
      edit_distance a a = 0 ∧ edit_distance a b = edit_distance b a := by
  intro a b
  exact ⟨edit_distance_spec a b, edit_distance_self a, edit_distance_symm a b⟩

/-- C3: `candidates` is never empty and follows the cascade: the word itself
when known; else the known `edits1` strings, if any; else the known `edits2`
strings, if any; else a singleton with a vocabulary key of minimal edit
distance, or the word itself when the vocabulary is empty. -/
theorem claim3_candidates_cascade :
    ∀ (W : Vocab) (w : List Char),
      candidates W w ≠ [] ∧
      (memW W w = true → candidates W w = [w]) ∧
      (memW W w = false → known W (edits1 w) ≠ [] →
        candidates W w = known W (edits1 w)) ∧
      (memW W w = false → known W (edits1 w) = [] → known W (edits2 w) ≠ [] →
        candidates W w = known W (edits2 w)) ∧
      (memW W w = false → known W (edits1 w) = [] → known W (edits2 w) = [] →
        (keys W = [] → candidates W w = [w]) ∧
        (keys W ≠ [] → ∃ c, candidates W w = [c] ∧ c ∈ keys W ∧
          ∀ k ∈ keys W, edit_distance w c ≤ edit_distance w k)) := by
  intro W w
  refine ⟨candidates_ne_nil W w, ?_, ?_, ?_, ?_⟩
  · intro h1
    rw [candidates, if_pos h1]
  · intro h1 h2
    rw [candidates, if_neg (by simp [h1]), if_pos h2]
  · intro h1 h2 h3
    rw [candidates, if_neg (by simp [h1]), if_neg (by simp [h2]), if_pos h3]
  · intro h1 h2 h3
    constructor
    · intro hk
      rw [candidates, if_neg (by simp [h1]), if_neg (by simp [h2]), if_neg (by simp [h3]),
        (closest_none_iff W w).mpr hk]
    · intro hk
      obtain ⟨c, hcl, hck, hmin⟩ := closest_spec W w hk
      refine ⟨c, ?_, hck, hmin⟩
      rw [candidates, if_neg (by simp [h1]), if_neg (by simp [h2]), if_neg (by simp [h3]), hcl]

/-- C4 (counterexample): with "casa" in the vocabulary, the all-caps word
"CASA" — whose lowercase form is in the vocabulary — is returned as "Casa",
not preserved. -/
theorem claim4_counterexample :
    correction [("casa".data, 1)] "CASA".data = "Casa".data ∧
    "Casa".data ≠ "CASA".data := by
  exact ⟨by decide, by decide⟩

/-- C4 (amended): for a word whose lowercase form is in the vocabulary,
`correction` returns the lowercase form, recapitalised (first letter
uppercase, remainder lowercase) when the original's first character was
uppercase; so the word is preserved exactly when it already has that shape,
e.g. `correction("Casa") = "Casa"` and `correction("casa") = "casa"`. -/
theorem claim4_known_word_case :
    (∀ (W : Vocab) (w : List Char), w ≠ [] → memW W (lowerStr w) = true →
      correction W w =
        (if firstUpper w then pythonCapitalize (lowerStr w) else lowerStr w)) ∧
    correction [("casa".data, 1)] "Casa".data = "Casa".data ∧
    correction [("casa".data, 1)] "casa".data = "casa".data := by
  refine ⟨?_, by decide, by decide⟩
  intro W w hw h
  exact correction_of_known W w hw h

/-- C5 (counterexample): with vocabulary `{olá:1}`, the mixed token "ola123"
is a single chunk of `re.split(r'(\W+)', ·)` (digits are word characters),
fails `_WORD_RE.fullmatch`, and passes through verbatim with an empty change
map — even though the letter run "ola" would be corrected to "olá" (a
case-insensitive change) if it were passed to `correction` as the claim
says. -/
theorem claim5_counterexample :
    correct_sentence [("olá".data, 1)] "ola123".data = ("ola123".data, []) ∧
    correction [("olá".data, 1)] "ola".data = "olá".data ∧
    lowerStr "olá".data ≠ lowerStr "ola".data := by
  exact ⟨by decide, by decide, by decide⟩

/-- C5 (amended): `correct_sentence` splits the text into maximal runs of
Python word characters (letters, digits, underscore) alternating with runs of
the other characters, concatenation reproducing the text; a chunk is passed
to `correction` exactly when it consists of one or more `[A-Za-zÀ-ÿ]`
characters, every other chunk (including mixed runs such as "ola123") being
appended verbatim. -/
theorem claim5_tokenization :
    (∀ text : List Char,
      (splitWords text).flatten = text ∧
      ∀ p ∈ splitWords text,
        p.all isWordChar = true ∨ (p ≠ [] ∧ p.all (fun c => !isWordChar c) = true)) ∧
    (∀ (W : Vocab) (text : List Char),
      (correct_sentence W text).1 =
        ((splitWords text).map (fun p => if wordFull p then correction W p else p)).flatten) ∧
    correct_sentence [("olá".data, 1)] "ola123".data = ("ola123".data, []) := by
  refine ⟨fun text => ⟨splitWords_join text, splitWords_parts text⟩, ?_, by decide⟩
  intro W text
  rw [correct_sentence]
  rw [csFold_fst W (splitWords text) [] []]
  simp

/-- C6: splitting loses and reorders no characters, so when every part that
matches the word pattern is its own correction the output is the input text
with an empty change map; in particular with "olá" and "mundo" in the
vocabulary, `correct_sentence("olá, mundo!!") = ("olá, mundo!!", {})`. -/
theorem claim6_preserves_text :
    (∀ (W : Vocab) (text : List Char),
      (splitWords text).flatten = text ∧
      (∀ p ∈ splitWords text, wordFull p = false →
        (if wordFull p then correction W p else p) = p) ∧
      ((∀ p ∈ splitWords text, wordFull p = true → correction W p = p) →
        correct_sentence W text = (text, []))) ∧
    correct_sentence [("olá".data, 3), ("mundo".data, 2)] "olá, mundo!!".data =
      ("olá, mundo!!".data, []) := by
  refine ⟨?_, by decide⟩
  intro W text
  refine ⟨splitWords_join text, ?_, ?_⟩
  · intro p _ hp
    rw [if_neg (by simp [hp])]
  · intro h
    rw [correct_sentence]
    rw [csFold_id W (splitWords text) [] [] h]
    simp [splitWords_join text]

/-- C7: the change map of `correct_sentence` holds the pair `(k, v)` exactly
when `k` is a chunk of the split matching the word pattern whose correction
`v` differs from `k` ignoring case. -/
theorem claim7_change_map :
    ∀ (W : Vocab) (text k v : List Char),
      (k, v) ∈ (correct_sentence W text).2 ↔
        (k ∈ splitWords text ∧ wordFull k = true ∧ v = correction W k ∧
          lowerStr v ≠ lowerStr k) := by
  intro W text k v
  exact correct_sentence_map_iff W text k v

/-- C8 (counterexample): with an empty vocabulary, `correction` is not a
no-op on "CASA": the word falls through to the full scan (returning its own
lowercase form) and is then recapitalised to "Casa"; `correct_sentence`
likewise returns "Casa" (with an empty change map), not the input. -/
theorem claim8_counterexample :
    correction ([] : Vocab) "CASA".data = "Casa".data ∧
    correct_sentence ([] : Vocab) "CASA".data = ("Casa".data, []) ∧
    "Casa".data ≠ "CASA".data := by
  have hc : correction ([] : Vocab) "CASA".data = "Casa".data := by
    rw [correction_empty_vocab]
    decide
  refine ⟨hc, ?_, by decide⟩
  rw [correct_sentence]
  have hs : splitWords "CASA".data = ["CASA".data] := by decide
  rw [hs]
  simp only [csFold]
  rw [if_pos (by decide : wordFull "CASA".data = true), hc,
    if_neg (by decide : ¬lowerStr "Casa".data ≠ lowerStr "CASA".data)]
  decide

/-- C8 (amended): with an empty vocabulary, `candidates` returns the word
itself, `correction` only normalises case (lowercase, recapitalised when the
first character was uppercase), the change map is always empty, and
`correct_sentence` is the identity exactly on texts whose word-pattern chunks
are already in that normal case. -/
theorem claim8_empty_vocab :
    (∀ w : List Char, candidates ([] : Vocab) w = [w]) ∧
    (∀ w : List Char, correction ([] : Vocab) w =
      (if firstUpper w then pythonCapitalize (lowerStr w) else lowerStr w)) ∧
    (∀ text : List Char, (correct_sentence ([] : Vocab) text).2 = []) ∧
    (∀ text : List Char,
      (∀ p ∈ splitWords text, wordFull p = true →
        (if firstUpper p then pythonCapitalize (lowerStr p) else lowerStr p) = p) →
      correct_sentence ([] : Vocab) text = (text, [])) := by
  refine ⟨candidates_empty_vocab, correction_empty_vocab, ?_, ?_⟩
  · intro text
    rw [List.eq_nil_iff_forall_not_mem]
    rintro ⟨k, v⟩ hkv
    obtain ⟨-, -, hv, hne⟩ := (correct_sentence_map_iff ([] : Vocab) text k v).mp hkv
    apply hne
    rw [hv, correction_empty_vocab k]
    exact lower_canon k
  · intro text h
    rw [correct_sentence]
    rw [csFold_id ([] : Vocab) (splitWords text) [] []
      (fun p hp hw => by rw [correction_empty_vocab p]; exact h p hp hw)]
    simp [splitWords_join text]

/-- C9 (counterexample): with vocabulary `{ab, cd, x, abxcd}` and input
"AB×CD", the first pass corrects the chunks to "Ab", "x", "Cd", whose
concatenation "AbxCd" re-splits as a single word run; its lowercase form
"abxcd" is in the vocabulary, yet a second pass recapitalises it to "Abxcd",
so `correct_sentence` is not idempotent on its own output even though every
corrected word run of the output is, lowercased, a vocabulary member. -/
theorem claim9_counterexample :
    (correct_sentence [("ab".data, 1), ("cd".data, 1), ("x".data, 1), ("abxcd".data, 1)]
        "AB×CD".data).1 = "AbxCd".data ∧
    (∀ p ∈ splitWords "AbxCd".data, wordFull p = true →
      memW [("ab".data, 1), ("cd".data, 1), ("x".data, 1), ("abxcd".data, 1)]
        (lowerStr p) = true) ∧
    (correct_sentence [("ab".data, 1), ("cd".data, 1), ("x".data, 1), ("abxcd".data, 1)]
        "AbxCd".data).1 ≠ "AbxCd".data := by
  exact ⟨by decide, by decide, by decide⟩

/-- C9 (amended): `correct_sentence` is idempotent on its own output `c1`
when every word-pattern chunk of `c1` is, lowercased, a vocabulary member
AND is already in canonical case (lowercase, or first letter uppercase with
lowercase remainder, as `correction` produces): then
`correct_sentence(c1) = (c1, {})`. -/
theorem claim9_idempotence (W : Vocab) (text : List Char)
    (h : ∀ p ∈ splitWords (correct_sentence W text).1, wordFull p = true →
      memW W (lowerStr p) = true ∧
      (if firstUpper p then pythonCapitalize (lowerStr p) else lowerStr p) = p) :
    correct_sentence W (correct_sentence W text).1 =
      ((correct_sentence W text).1, []) := by
  rw [correct_sentence]
  rw [csFold_id W (splitWords (correct_sentence W text).1) [] [] ?_]
  · simp [splitWords_join]
  · intro p hp hw
    obtain ⟨hmem, hcanon⟩ := h p hp hw
    have hpne : p ≠ [] := by
      intro hnil
      rw [hnil] at hw
      cases hw
    rw [correction_of_known W p hpne hmem, hcanon]

/-- C9 (witness): with vocabulary `{casa}` and input "casa", the output of
the first pass satisfies the hypotheses and the second pass is the
identity. -/
theorem claim9_idempotence_witness :
    correct_sentence [("casa".data, 1)]
        (correct_sentence [("casa".data, 1)] "casa".data).1 =
      ((correct_sentence [("casa".data, 1)] "casa".data).1, []) :=
  claim9_idempotence [("casa".data, 1)] "casa".data (by decide)

lemma toNat_lt_of_isExt (c : Char) (h : isExtLetter c = true) : c.toNat < 0x200 := by
  simp only [isExtLetter, Bool.or_eq_true, Bool.and_eq_true, decide_eq_true_eq] at h
  omega

set_option maxRecDepth 10000 in
/-- An extended letter that is fixed by lowercasing and is not ß returns to
itself after uppercasing then lowercasing. -/
lemma toLower_toUpper_of_lower_ext (c : Char) (hext : isExtLetter c = true)
    (hfix : toLowerChar c = c) (hne : c.toNat ≠ 0xDF) :
    toLowerChar (toUpperChar c) = c :=
  char_bounded
    (fun x => isExtLetter x = true → toLowerChar x = x → x.toNat ≠ 0xDF →
      toLowerChar (toUpperChar x) = x)
    c (toNat_lt_of_isExt c hext) (by decide) hext hfix hne

/-- A non-empty lowercase extended-letter word not starting with ß lowercases
back to itself after `capitalize`. -/
lemma lower_pythonCapitalize_of_canonical (s : List Char) (hfix : lowerStr s = s)
    (hext : ∀ c ∈ s, isExtLetter c = true) (hhead : ∀ c ∈ s.head?, c.toNat ≠ 0xDF) :
    lowerStr (pythonCapitalize s) = s := by
  cases s with
  | nil => rfl
  | cons b0 rest =>
    have hfix2 := hfix
    rw [lowerStr, List.map_cons] at hfix2
    have hb0 : toLowerChar b0 = b0 := (List.cons.injEq _ _ _ _ ▸ hfix2).1
    have hrest : rest.map toLowerChar = rest := (List.cons.injEq _ _ _ _ ▸ hfix2).2
    have hb0ne : b0.toNat ≠ 0xDF := hhead b0 (by simp)
    rw [pythonCapitalize, titleChars, if_neg hb0ne, hrest]
    rw [lowerStr, List.map_append, List.map_cons, List.map_nil, hrest]
    rw [toLower_toUpper_of_lower_ext b0 (hext b0 (List.mem_cons_self b0 rest)) hb0 hb0ne]
    rfl

/-- C10 (counterexample): with the (lowercase, reachable-from-a-corpus)
vocabulary `{ßa:1}` and input "Xa", the fallback scan selects "ßa" and the
recapitalisation turns it into "Ssa" (Python title-cases ß to "Ss"), whose
lowercase form "ssa" is neither a vocabulary key nor the lowercased input. -/
theorem claim10_counterexample :
    correction [("ßa".data, 1)] "Xa".data = "Ssa".data ∧
    lowerStr "Ssa".data ∉ keys [("ßa".data, 1)] ∧
    lowerStr "Ssa".data ≠ lowerStr "Xa".data := by
  have hkn := known_edits_nil_of_missing_char [("ßa".data, 1)] "xa".data 'ß'
    (by decide) (by decide) (by decide)
  have hcand : candidates [("ßa".data, 1)] "xa".data = ["ßa".data] := by
    rw [candidates, if_neg (by decide), if_neg (by simp [hkn.1]), if_neg (by simp [hkn.2])]
    have hcl : closest_by_edit_distance [("ßa".data, 1)] "xa".data = some "ßa".data := by
      decide
    rw [hcl]
  have hlow : lowerStr "Xa".data = "xa".data := by decide
  have hc : correction [("ßa".data, 1)] "Xa".data = "Ssa".data := by
    rw [correction_eq_bestOf _ _ (by decide), hlow,
      bestOf_of_candidates_singleton _ _ _ _ hcand]
    decide
  exact ⟨hc, by decide, by decide⟩

/-- C10 (amended): provided every vocabulary key is a non-empty lowercase
extended-letter word not starting with ß (as keys built by `words` from a
corpus are, except for the ß anomaly of the counterexample), the lowercase
form of every correction is a vocabulary key or the lowercase form of the
input: the corrector invents no other string. -/
theorem claim10_no_invented_words (W : Vocab) (w : List Char)
    (hW : ∀ k ∈ keys W, lowerStr k = k ∧ (∀ c ∈ k, isExtLetter c = true) ∧
      (∀ c ∈ k.head?, c.toNat ≠ 0xDF)) :
    lowerStr (correction W w) ∈ keys W ∨ lowerStr (correction W w) = lowerStr w := by
  by_cases hw : w = []
  · subst hw
    right
    rw [correction, if_pos rfl]
  · rw [correction_eq_bestOf W w hw]
    have hbc : bestOf W w (lowerStr w) ∈ candidates W (lowerStr w) :=
      (bestOf_spec W w (lowerStr w)).1
    rcases candidates_subset W (lowerStr w) _ hbc with hk | hlow
    · obtain ⟨hfix, hext, hhead⟩ := hW _ hk
      by_cases hup : firstUpper w = true
      · rw [if_pos hup]
        left
        rw [lower_pythonCapitalize_of_canonical _ hfix hext hhead]
        exact hk
      · rw [if_neg hup]
        left
        rw [hfix]
        exact hk
    · rw [hlow]
      right
      exact lower_canon w

/-- C10 (witness): the amended statement at vocabulary `{casa:1}` and input
"Caxa". -/
theorem claim10_no_invented_words_witness :
    lowerStr (correction [("casa".data, 1)] "Caxa".data) ∈ keys [("casa".data, 1)] ∨
    lowerStr (correction [("casa".data, 1)] "Caxa".data) = lowerStr "Caxa".data :=
  claim10_no_invented_words [("casa".data, 1)] "Caxa".data (by decide)
